import Mathlib

/-!
Shallow embedding of `valve/steam/api/interface.py` (python-valve): the
parameter-spec resolver, method/interface synthesis with version pinning,
the catalog builder with `pin_versions`, and `API.request`.

Python dictionaries are modelled as association lists with Python-dict
semantics: `dget` looks a key up, `dset` updates in place or appends,
`ddel` removes a key.  Exceptions are modelled with `Except`;
`warnings.warn` calls are collected into returned lists.
-/

namespace Valve

/-- Error taxonomy of the embedded code (each constructor corresponds to an
exception raised in `interface.py`). -/
inductive Err where
  /-- `NameError` from `_ensure_identifier` -/
  | invalidIdentifier (name : String)
  /-- `NameError` for a duplicate parameter name in `_MethodParameters.__init__` -/
  | duplicateParameter (name : String)
  /-- `TypeError` from `_MethodParameters.validate` -/
  | missingMandatoryArgument (name : String)
  /-- `ValueError` from `uint32` / `uint64` bounds checks -/
  | outOfBounds (value : Int)
  /-- `ValueError` from `int()` applied to a non-numeric string -/
  | typeCoercion (s : String)
  /-- `ValueError` from `API.request` for an unsupported response format -/
  | invalidDecoder (fmt : String)
  deriving DecidableEq, Repr

/-- Warnings emitted through `warnings.warn` in `interface.py`. -/
inductive Warning where
  /-- unknown parameter type interpreted as string (`_MethodParameters.__init__`) -/
  | unknownParamType (ty : String)
  /-- a bound method's version is below the maximum seen (`make_interface`) -/
  | staleVersion (iface meth : String) (pinned maxVersion : Nat)
  deriving DecidableEq, Repr

/-- Python values flowing through parameter validation: strings and ints. -/
inductive Value where
  | vStr (s : String)
  | vInt (n : Int)
  deriving DecidableEq, Repr

section Dict

variable {α : Type _} {β : Type _} [DecidableEq α]

/-- Dictionary lookup: first entry with the given key (Python `d.get(k)`). -/
def dget : List (α × β) → α → Option β
  | [], _ => none
  | (k, v) :: rest, k' => if k' = k then some v else dget rest k'

/-- Dictionary assignment `d[k] = v`: update in place if the key is present,
append otherwise (Python dicts preserve insertion order). -/
def dset : List (α × β) → α → β → List (α × β)
  | [], k, v => [(k, v)]
  | (k0, v0) :: rest, k, v =>
    if k = k0 then (k0, v) :: rest else (k0, v0) :: dset rest k v

/-- Dictionary deletion `del d[k]`. -/
def ddel : List (α × β) → α → List (α × β)
  | [], _ => []
  | (k0, v0) :: rest, k =>
    if k = k0 then ddel rest k else (k0, v0) :: ddel rest k

end Dict

/-- Characters kept by `_ensure_identifier`'s first pass:
`string.ascii_letters + string.digits + "_"`. -/
def isIdentChar (c : Char) : Bool :=
  c.isAlpha || c.isDigit || c = '_'

/-- Characters allowed to lead an identifier: `string.ascii_letters + "_"`. -/
def isLeadChar (c : Char) : Bool :=
  c.isAlpha || c = '_'

/-- The `while identifier[0] not in string.ascii_letters + "_"` loop of
`_ensure_identifier`: indexing an empty string raises `IndexError`, which the
function turns into a `NameError`. -/
def stripLead : List Char → Except Err (List Char)
  | [] => .error (.invalidIdentifier "")
  | c :: cs => if isLeadChar c then .ok (c :: cs) else stripLead cs

/-- `_ensure_identifier(name)`: keep only `[A-Za-z0-9_]` characters, then drop
leading characters until one may lead an identifier; `NameError` (here
`Err.invalidIdentifier name`) if nothing remains. -/
def ensure_identifier (name : String) : Except Err String :=
  match stripLead (name.toList.filter isIdentChar) with
  | .error _ => .error (.invalidIdentifier name)
  | .ok cs => .ok (String.mk cs)

/-- `uint32(value)` after the initial `int(value)` coercion: bounds check
against `[0, 4294967295]`. -/
def uint32 (value : Int) : Except Err Int :=
  if value > 4294967295 then .error (.outOfBounds value)
  else if value < 0 then .error (.outOfBounds value)
  else .ok value

/-- `uint64(value)` after the initial `int(value)` coercion: bounds check
against `[0, 18446744073709551615]`. -/
def uint64 (value : Int) : Except Err Int :=
  if value > 18446744073709551615 then .error (.outOfBounds value)
  else if value < 0 then .error (.outOfBounds value)
  else .ok value

/-- Python `int(value)` on a value that is an int or a decimal string. -/
def pyInt : Value → Except Err Int
  | .vInt n => .ok n
  | .vStr s =>
    match s.toInt? with
    | some n => .ok n
    | none => .error (.typeCoercion s)

/-- Python `str(value)`. -/
def pyStr : Value → String
  | .vInt n => toString n
  | .vStr s => s

/-- Keys of the `PARAMETER_TYPES` table. -/
def PARAMETER_TYPES : List String := ["string", "uint32", "uint64"]

/-- Apply `PARAMETER_TYPES[ty]` to a value, as `_MethodParameters.validate`
does.  The constructor guarantees `ty` is in the table; unknown types map to
an error for totality. -/
def paramCoerce (ty : String) (v : Value) : Except Err Value :=
  if ty = "string" then .ok (.vStr (pyStr v))
  else if ty = "uint32" then
    match pyInt v with
    | .error e => .error e
    | .ok n =>
      match uint32 n with
      | .error e => .error e
      | .ok n' => .ok (.vInt n')
  else if ty = "uint64" then
    match pyInt v with
    | .error e => .error e
    | .ok n =>
      match uint64 n with
      | .error e => .error e
      | .ok n' => .ok (.vInt n')
  else .error (.typeCoercion ty)

/-- A raw parameter description as found in the API listing (before
`_MethodParameters` normalises it). `description` is optional in the input. -/
structure ParamSpec where
  name : String
  type : String
  optional : Bool
  description : Option String
  deriving DecidableEq, Repr

/-- Lexicographic (code point) comparison of char lists, the order Python's
`sorted` uses on strings. -/
def charsLt : List Char → List Char → Bool
  | _, [] => false
  | [], _ :: _ => true
  | c :: cs, d :: ds =>
    if c.toNat < d.toNat then true
    else if d.toNat < c.toNat then false
    else charsLt cs ds

/-- Lexicographic (code point) comparison of strings. -/
def strLt (s t : String) : Bool := charsLt s.toList t.toList

/-- Insertion step of sorting by key (Python `sorted(d.items(), key=...)`;
keys are unique so stability is irrelevant). -/
def insertByKey (p : String × ParamSpec) :
    List (String × ParamSpec) → List (String × ParamSpec)
  | [] => [p]
  | q :: rest => if strLt p.1 q.1 then p :: q :: rest else q :: insertByKey p rest

/-- Sort an association list by key. -/
def sortByKey (l : List (String × ParamSpec)) : List (String × ParamSpec) :=
  l.foldr insertByKey []

/-- Loop body of `_MethodParameters.__init__`: skip the `key` parameter,
sanitize the name, reject duplicates, default the description, degrade
unknown types to `"string"` with a `FutureWarning`. -/
def methodParametersLoop :
    List ParamSpec → List (String × ParamSpec) → List Warning →
    Except Err (List (String × ParamSpec) × List Warning)
  | [], unordered, warns => .ok (sortByKey unordered, warns)
  | spec :: rest, unordered, warns =>
    if spec.name = "key" then methodParametersLoop rest unordered warns
    else
      match ensure_identifier spec.name with
      | .error e => .error e
      | .ok name' =>
        if (dget unordered name').isSome then .error (.duplicateParameter name')
        else
          let desc := spec.description.getD ""
          if PARAMETER_TYPES.contains spec.type then
            methodParametersLoop rest
              (dset unordered name'
                { name := name', type := spec.type,
                  optional := spec.optional, description := some desc })
              warns
          else
            methodParametersLoop rest
              (dset unordered name'
                { name := name', type := "string",
                  optional := spec.optional, description := some desc })
              (warns ++ [.unknownParamType spec.type])

/-- `_MethodParameters(specs)`: the normalised parameter table, sorted
alphabetically by sanitized name, together with the warnings emitted. -/
def methodParameters (specs : List ParamSpec) :
    Except Err (List (String × ParamSpec) × List Warning) :=
  methodParametersLoop specs [] []

/-- `_MethodParameters.signature`: `self`, then mandatory parameters, then
optional parameters suffixed with `=None`, comma separated.  The source
splits the already-sorted table into the two groups in one pass, which is
what filtering in table order does. -/
def signature (params : List (String × ParamSpec)) : String :=
  let mandatory := (params.filter (fun p => !p.2.optional)).map (fun p => p.2.name)
  let optional := (params.filter (fun p => p.2.optional)).map (fun p => p.2.name ++ "=None")
  String.intercalate ", " ("self" :: (mandatory ++ optional))

/-- Loop of `_MethodParameters.validate`: absent (or `None`) arguments are
an error for mandatory parameters and skipped for optional ones; present
arguments are coerced through the parameter's type. -/
def validateLoop :
    List (String × ParamSpec) → List (String × Value) → List (String × Value) →
    Except Err (List (String × Value))
  | [], _, values => .ok values
  | (_, arg) :: rest, kwargs, values =>
    match dget kwargs arg.name with
    | none =>
      if !arg.optional then .error (.missingMandatoryArgument arg.name)
      else validateLoop rest kwargs values
    | some v =>
      match paramCoerce arg.type v with
      | .error e => .error e
      | .ok v' => validateLoop rest kwargs (dset values arg.name v')

/-- `_MethodParameters.validate(**kwargs)`; an argument missing from
`kwargs` models Python's `None`. -/
def validate (params : List (String × ParamSpec)) (kwargs : List (String × Value)) :
    Except Err (List (String × Value)) :=
  validateLoop params kwargs []

/-- A raw method description from the API listing. -/
structure MethodSpecRaw where
  name : String
  version : Nat
  httpmethod : String
  parameters : List ParamSpec
  deriving DecidableEq, Repr

/-- A synthesized method: the data `make_method` attaches to the generated
callable (`method.name`, `method.version`, the HTTP verb and the parameter
table captured by its closure). -/
structure Method where
  name : String
  version : Nat
  httpmethod : String
  params : List (String × ParamSpec)
  deriving DecidableEq, Repr

/-- An interface description (one element of `apilist.interfaces`). -/
structure InterfaceSpec where
  name : String
  methods : List MethodSpecRaw
  deriving DecidableEq, Repr

/-- The value of the synthesized class's `name` attribute.  `make_interface`
seeds `attrs` with the interface name string, but `attrs.update(methods)`
overwrites it with the synthesized method when a bound method is literally
named `name`; reading the attribute then yields that method (a bound-method
object), not a string.  Method objects are compared structurally here,
whereas Python compares function objects by identity; no theorem below
depends on the difference. -/
inductive NameAttr where
  | str (s : String)
  | meth (m : Method)
  deriving DecidableEq, Repr

/-- A synthesized interface (the class produced by `type(...)`): the final
`name` attribute, the final `__iter__` attribute when it was overwritten by
a bound method named `__iter__` (`none` leaves the original lambda over the
`methods` closure), and the `methods` closure dictionary itself, in
insertion order. -/
structure Interface where
  name : NameAttr
  iter : Option Method
  methods : List (String × Method)
  deriving DecidableEq, Repr

/-- The `name` attribute left by `attrs = {"name": spec["name"], ...}`
followed by `attrs.update(methods)`. -/
def nameAttr (spec_name : String) (methods : List (String × Method)) : NameAttr :=
  match dget methods "name" with
  | some m => NameAttr.meth m
  | none => NameAttr.str spec_name

/-- `make_method(spec)`: sanitize the name, build the parameter table,
return the method together with the warnings emitted while building it. -/
def make_method (spec : MethodSpecRaw) : Except Err (Method × List Warning) :=
  match ensure_identifier spec.name with
  | .error e => .error e
  | .ok name' =>
    match methodParameters spec.parameters with
    | .error e => .error e
    | .ok (args, ws) =>
      .ok ({ name := name', version := spec.version,
             httpmethod := spec.httpmethod, params := args }, ws)

/-- Run `make_method` on every method description, stopping at the first
error (as the loop in `make_interface` does). -/
def make_methods : List MethodSpecRaw → Except Err (List (Method × List Warning))
  | [] => .ok []
  | s :: rest =>
    match make_method s with
    | .error e => .error e
    | .ok mw =>
      match make_methods rest with
      | .error e => .error e
      | .ok rest' => .ok (mw :: rest')

/-- The `methods`-dictionary update of one iteration of `make_interface`'s
method loop: bind the method according to the pin, or keep the highest
version seen so far when unpinned. -/
def miStepMethods (versions : List (String × Nat))
    (methods : List (String × Method)) (m : Method) : List (String × Method) :=
  match dget versions m.name with
  | none =>
    let m' :=
      match dget methods m.name with
      | some current => if m.version < current.version then current else m
      | none => m
    dset methods m.name m'
  | some pinned => if m.version = pinned then dset methods m.name m else methods

/-- The `max_versions` update of one iteration of `make_interface`'s method
loop: `max_versions[name] = max(version, max_versions.get(name, 0))`. -/
def miStepMax (max_versions : List (String × Nat)) (m : Method) :
    List (String × Nat) :=
  dset max_versions m.name (max m.version ((dget max_versions m.name).getD 0))

/-- One iteration of `make_interface`'s method loop over the pair
`(methods, max_versions)`. -/
def miStep (versions : List (String × Nat))
    (st : List (String × Method) × List (String × Nat)) (m : Method) :
    List (String × Method) × List (String × Nat) :=
  (miStepMethods versions st.1 m, miStepMax st.2 m)

/-- The whole method loop of `make_interface`. -/
def buildMethodsDict (versions : List (String × Nat)) (ms : List Method) :
    List (String × Method) × List (String × Nat) :=
  ms.foldl (miStep versions) ([], [])

/-- The warning pass at the end of `make_interface`: one `FutureWarning`
for every bound method whose version is below the tracked maximum for its
name, in the order of the bound-method dictionary. -/
def staleWarnings (iname : String) (methods : List (String × Method))
    (max_versions : List (String × Nat)) : List Warning :=
  methods.filterMap (fun km =>
    if km.2.version < (dget max_versions km.2.name).getD 0 then
      some (Warning.staleVersion iname km.2.name km.2.version
        ((dget max_versions km.2.name).getD 0))
    else none)

/-- `make_interface(spec, versions)`: build every method, resolve versions
against the pins, emit a `FutureWarning` for every bound method whose
version is below the maximum seen for its name, then build the class from
`attrs = {"name": ..., "__iter__": ...}` updated with the methods
dictionary — methods named `name` or `__iter__` overwrite those
attributes. -/
def make_interface (spec : InterfaceSpec) (versions : List (String × Nat)) :
    Except Err (Interface × List Warning) :=
  match make_methods spec.methods with
  | .error e => .error e
  | .ok mws =>
    let ms := mws.map Prod.fst
    let paramWarns := (mws.map Prod.snd).flatten
    let st := buildMethodsDict versions ms
    .ok ({ name := nameAttr spec.name st.1,
           iter := dget st.1 "__iter__",
           methods := st.1 },
      paramWarns ++ staleWarnings spec.name st.1 st.2)

/-- The loop of `make_interfaces`: each interface class is stored in the
module's dictionary under its class `__name__` — the spec's name string,
unaffected by the attribute clobbering — later interfaces with the same
name overwriting earlier ones.  The `versions` mapping is keyed by whatever
values `interface.name` produced (strings normally, a bound method when
clobbered), looked up here with the spec's name string. -/
def make_interfaces_loop (versions : List (NameAttr × List (String × Nat))) :
    List InterfaceSpec → List (String × Interface) × List Warning →
    Except Err (List (String × Interface) × List Warning)
  | [], st => .ok st
  | ispec :: rest, (cat, ws) =>
    match make_interface ispec
        ((dget versions (NameAttr.str ispec.name)).getD []) with
    | .error e => .error e
    | .ok (itf, w) => make_interfaces_loop versions rest (dset cat ispec.name itf, ws ++ w)

/-- `make_interfaces(api_list, versions)`: the synthesized module, as the
dictionary mapping interface names to interfaces, plus all warnings. -/
def make_interfaces (api_list : List InterfaceSpec)
    (versions : List (NameAttr × List (String × Nat))) :
    Except Err (List (String × Interface) × List Warning) :=
  make_interfaces_loop versions api_list ([], [])

/-- The inner loop of `API.pin_versions()` when iteration still runs the
original `__iter__` lambda: map each bound method's name to its bound
version, in the order of the `methods` closure. -/
def methodsVers (itf : Interface) : List (String × Nat) :=
  itf.methods.foldl (fun mv km => dset mv km.2.name km.2.version) []

/-- The loop of `API.pin_versions()`.  `versions[interface.name]` is keyed
by the interface's `name` attribute, which is a bound method when a method
named `name` clobbered it.  When the `__iter__` attribute was clobbered by
a bound method, `for method in interface` invokes that synthesized method
instead of iterating — a transport call (or a `TypeError` when it has
mandatory parameters): the result leaves the pure model and is `none`
here. -/
def pin_versions_loop :
    List (String × Interface) → List (NameAttr × List (String × Nat)) →
    Option (List (NameAttr × List (String × Nat)))
  | [], acc => some acc
  | ki :: rest, acc =>
    match ki.2.iter with
    | some _ => none
    | none => pin_versions_loop rest (dset acc ki.2.name (methodsVers ki.2))

/-- `API.pin_versions()`: for every bound interface, the mapping of bound
method names to bound versions, keyed by the interface's `name`
attribute. -/
def pin_versions (cat : List (String × Interface)) :
    Option (List (NameAttr × List (String × Nat))) :=
  pin_versions_loop cat []

/-- The version bound for method `mname` of interface `iname` in a catalog,
if any. -/
def boundVer (cat : List (String × Interface)) (iname mname : String) : Option Nat :=
  (dget cat iname).bind (fun itf => (dget itf.methods mname).map (fun m => m.version))

/-- `API_RESPONSE_FORMATS`. -/
def API_RESPONSE_FORMATS : List String := ["json", "vdf", "xml"]

/-- `API.api_root`. -/
def api_root : String := "https://api.steampowered.com/"

/-- The single transport call `API.request` hands to
`self._session.request`: verb, URL, and the parameter dictionary. -/
structure TransportCall where
  http_method : String
  url : String
  params : List (String × String)
  deriving DecidableEq, Repr

/-- The in-place mutations `API.request` performs on the parameter mapping
once the format check has passed: `params["format"] = format.format`, then
`del params["key"]` if present, then `params["key"] = self.key` when
`self.key` is truthy. -/
def reqParams (selfKey : Option String) (fmt : String)
    (p : List (String × String)) : List (String × String) :=
  let p1 := dset p "format" fmt
  let p2 := ddel p1 "key"
  match selfKey with
  | some k => if k = "" then p2 else dset p2 "key" k
  | none => p2

/-- `API.request(http_method, interface, method, version, params, format)`,
for a client holding `selfKey` and a default decoder tagged `selfFormat`.
The first component is the outcome: the transport call made (`.ok`) or the
`ValueError` raised before any transport call (`.error`).  The second
component is the caller's `params` mapping as the caller sees it after the
call (the source mutates it in place), `none` when the caller passed no
mapping. -/
def request (selfKey : Option String) (selfFormat : String)
    (http_method iface meth : String) (version : Nat)
    (params : Option (List (String × String))) (format : Option String) :
    Except Err TransportCall × Option (List (String × String)) :=
  let p := params.getD []
  let fmt := format.getD selfFormat
  let path := iface ++ "/" ++ meth ++ "/v" ++ toString version ++ "/"
  if fmt ∈ API_RESPONSE_FORMATS then
    (.ok { http_method := http_method, url := api_root ++ path,
           params := reqParams selfKey fmt p },
      params.map (fun _ => reqParams selfKey fmt p))
  else
    (.error (.invalidDecoder fmt), params)

/-- The key the client will place in outgoing parameters: its own key when
it holds a non-empty one (`if self.key:` tests truthiness), nothing
otherwise. -/
def keyHeld : Option String → Option String
  | some k => if k = "" then none else some k
  | none => none

/-- Versions declared for (sanitized) method name `nm` among the built
methods, in declaration order. -/
def vsOf (nm : String) (ms : List Method) : List Nat :=
  (ms.filter (fun m => m.name = nm)).map Method.version

/-- Running "keep the highest version" fold of `make_interface`'s unpinned
branch, starting from the currently bound version. -/
def runMax (init : Option Nat) (vs : List Nat) : Option Nat :=
  vs.foldl (fun b v => some (max (b.getD 0) v)) init

/-- Last interface description with a given name (the one whose synthesized
class survives in the module dictionary). -/
def findLast (iname : String) : List InterfaceSpec → Option InterfaceSpec
  | [] => none
  | i :: rest =>
    match findLast iname rest with
    | some r => some r
    | none => if i.name = iname then some i else none

section DictLemmas

variable {α : Type _} {β : Type _} [DecidableEq α]

@[simp] theorem dget_nil (k : α) : dget ([] : List (α × β)) k = none := rfl

theorem dget_cons (k0 : α) (v0 : β) (rest : List (α × β)) (k : α) :
    dget ((k0, v0) :: rest) k = if k = k0 then some v0 else dget rest k := rfl

@[simp] theorem dget_dset_self (l : List (α × β)) (k : α) (v : β) :
    dget (dset l k v) k = some v := by
  induction l with
  | nil => simp [dget, dset]
  | cons p rest ih =>
    obtain ⟨k0, v0⟩ := p
    by_cases h : k = k0 <;> simp [dget, dset, h, ih]

theorem dget_dset_ne (l : List (α × β)) (k k' : α) (v : β) (h : k' ≠ k) :
    dget (dset l k v) k' = dget l k' := by
  induction l with
  | nil => simp [dget, dset, h]
  | cons p rest ih =>
    obtain ⟨k0, v0⟩ := p
    by_cases h0 : k = k0
    · subst h0; simp [dget, dset, h]
    · by_cases h1 : k' = k0 <;> simp [dget, dset, h0, h1, ih]

@[simp] theorem dget_ddel_self (l : List (α × β)) (k : α) :
    dget (ddel l k) k = none := by
  induction l with
  | nil => simp [ddel]
  | cons p rest ih =>
    obtain ⟨k0, v0⟩ := p
    by_cases h : k = k0
    · subst h; simp [ddel, ih]
    · simp [dget, ddel, h, ih]

theorem dget_ddel_ne (l : List (α × β)) (k k' : α) (h : k' ≠ k) :
    dget (ddel l k) k' = dget l k' := by
  induction l with
  | nil => simp [ddel]
  | cons p rest ih =>
    obtain ⟨k0, v0⟩ := p
    by_cases h0 : k = k0
    · subst h0; simp [dget, ddel, h, ih]
    · by_cases h1 : k' = k0 <;> simp [dget, ddel, h0, h1, ih]

theorem dget_eq_none_iff (l : List (α × β)) (k : α) :
    dget l k = none ↔ ∀ p ∈ l, p.1 ≠ k := by
  induction l with
  | nil => simp
  | cons p rest ih =>
    obtain ⟨k0, v0⟩ := p
    by_cases h : k = k0
    · subst h; simp [dget]
    · simp [dget, h, ih, Ne.symm h]

theorem dget_mem (l : List (α × β)) (k : α) (v : β) (h : dget l k = some v) :
    (k, v) ∈ l := by
  induction l with
  | nil => simp [dget] at h
  | cons p rest ih =>
    obtain ⟨k0, v0⟩ := p
    by_cases h0 : k = k0
    · subst h0
      simp [dget] at h
      simp [h]
    · simp [dget, h0] at h
      exact List.mem_cons_of_mem _ (ih h)

theorem mem_dset (l : List (α × β)) (k : α) (v : β) (p : α × β)
    (h : p ∈ dset l k v) : p = (k, v) ∨ p ∈ l := by
  induction l with
  | nil => simp [dset] at h; simp [h]
  | cons q rest ih =>
    obtain ⟨k0, v0⟩ := q
    by_cases h0 : k = k0
    · subst h0
      simp [dset] at h
      rcases h with h | h
      · exact Or.inl (by simp [h])
      · exact Or.inr (by simp [h])
    · simp [dset, h0] at h
      rcases h with h | h
      · exact Or.inr (by simp [h])
      · rcases ih h with h' | h'
        · exact Or.inl h'
        · exact Or.inr (List.mem_cons_of_mem _ h')

theorem dset_keys (l : List (α × β)) (k : α) (v : β) :
    (dset l k v).map Prod.fst =
      if (dget l k).isSome then l.map Prod.fst else l.map Prod.fst ++ [k] := by
  induction l with
  | nil => simp [dget, dset]
  | cons p rest ih =>
    obtain ⟨k0, v0⟩ := p
    by_cases h : k = k0
    · subst h; simp [dget, dset]
    · simp [dget, dset, h, ih]
      by_cases h1 : (dget rest k).isSome <;> simp [h1]

theorem dset_keys_nodup (l : List (α × β)) (k : α) (v : β)
    (h : (l.map Prod.fst).Nodup) : ((dset l k v).map Prod.fst).Nodup := by
  rw [dset_keys]
  by_cases h1 : (dget l k).isSome
  · simp [h1, h]
  · have hnone : dget l k = none := by
      cases h2 : dget l k
      · rfl
      · simp [h2] at h1
    have hk : k ∉ l.map Prod.fst := by
      intro hx
      simp only [List.mem_map] at hx
      obtain ⟨p, hp, hpx⟩ := hx
      exact (dget_eq_none_iff l k).mp hnone p hp hpx
    simp [h1, List.nodup_append, h, hk]

theorem dset_fresh (l : List (α × β)) (k : α) (v : β) (h : dget l k = none) :
    dset l k v = l ++ [(k, v)] := by
  induction l with
  | nil => simp [dset]
  | cons p rest ih =>
    obtain ⟨k0, v0⟩ := p
    by_cases h0 : k = k0
    · subst h0; simp [dget] at h
    · simp [dget, h0] at h
      simp [dset, h0, ih h]

theorem dget_append_left (l1 l2 : List (α × β)) (k : α)
    (h : (dget l1 k).isSome) : dget (l1 ++ l2) k = dget l1 k := by
  induction l1 with
  | nil => simp [dget] at h
  | cons p rest ih =>
    obtain ⟨k0, v0⟩ := p
    by_cases h0 : k = k0
    · subst h0; simp [dget]
    · simp [dget, h0] at h ⊢
      exact ih h

theorem dget_append_right (l1 l2 : List (α × β)) (k : α)
    (h : dget l1 k = none) : dget (l1 ++ l2) k = dget l2 k := by
  induction l1 with
  | nil => simp
  | cons p rest ih =>
    obtain ⟨k0, v0⟩ := p
    by_cases h0 : k = k0
    · subst h0; simp [dget] at h
    · simp [dget, h0] at h ⊢
      exact ih h

theorem dget_map {γ : Type _} (g : β → γ) (l : List (α × β)) (k : α) :
    dget (l.map (fun p => (p.1, g p.2))) k = (dget l k).map g := by
  induction l with
  | nil => simp
  | cons p rest ih =>
    obtain ⟨k0, v0⟩ := p
    by_cases h0 : k = k0 <;> simp [dget, h0, ih]

end DictLemmas

theorem stripLead_eq_dropWhile (l : List Char) :
    stripLead l =
      if (l.dropWhile (fun c => !isLeadChar c)).isEmpty then
        .error (.invalidIdentifier "")
      else .ok (l.dropWhile (fun c => !isLeadChar c)) := by
  induction l with
  | nil => rfl
  | cons c cs ih =>
    by_cases h : isLeadChar c
    · simp [stripLead, List.dropWhile, h]
    · simp [stripLead, List.dropWhile, h, ih]

/-- C8: for every parameter name, sanitization keeps exactly the characters
in `[A-Za-z0-9_]` and then drops leading characters until the first is a
letter or underscore, failing with the invalid-identifier error when nothing
remains; in particular `"foo-bar!"` yields `"foobar"` and `"!!!"` fails. -/
theorem C8_ensure_identifier :
    (∀ s : String,
      ensure_identifier s =
        if ((s.toList.filter isIdentChar).dropWhile (fun c => !isLeadChar c)).isEmpty then
          .error (.invalidIdentifier s)
        else
          .ok (String.mk
            ((s.toList.filter isIdentChar).dropWhile (fun c => !isLeadChar c)))) ∧
    ensure_identifier "foo-bar!" = .ok "foobar" ∧
    ensure_identifier "!!!" = .error (.invalidIdentifier "!!!") := by
  refine ⟨?_, rfl, rfl⟩
  intro s
  unfold ensure_identifier
  rw [stripLead_eq_dropWhile]
  by_cases h : ((s.toList.filter isIdentChar).dropWhile (fun c => !isLeadChar c)).isEmpty
  · rw [if_pos h, if_pos h]
  · rw [if_neg h, if_neg h]

/-- C9: `uint32` succeeds (returning the value unchanged) exactly on the
inclusive range `[0, 4294967295]` and fails with the out-of-bounds error
otherwise; `uint64` likewise with `[0, 18446744073709551615]`. -/
theorem C9_uint_bounds :
    ∀ value : Int,
      (uint32 value =
        if 0 ≤ value ∧ value ≤ 4294967295 then .ok value
        else .error (.outOfBounds value)) ∧
      (uint64 value =
        if 0 ≤ value ∧ value ≤ 18446744073709551615 then .ok value
        else .error (.outOfBounds value)) := by
  intro value
  constructor
  · unfold uint32
    split_ifs <;> first | rfl | omega
  · unfold uint64
    split_ifs <;> first | rfl | omega

/-- C7: for the parameter table `{a: optional string, b: mandatory uint32}`,
the synthesized signature orders `b` before `a`, validation with only `b=5`
returns exactly `{b: 5}`, and validation with neither argument fails with
the missing-mandatory-argument error. -/
theorem C7_signature_and_validate :
    methodParameters
        [{ name := "a", type := "string", optional := true, description := none },
         { name := "b", type := "uint32", optional := false, description := none }] =
      .ok ([("a", { name := "a", type := "string", optional := true, description := some "" }),
            ("b", { name := "b", type := "uint32", optional := false, description := some "" })],
           []) ∧
    signature
        [("a", { name := "a", type := "string", optional := true, description := some "" }),
         ("b", { name := "b", type := "uint32", optional := false, description := some "" })] =
      "self, b, a=None" ∧
    validate
        [("a", { name := "a", type := "string", optional := true, description := some "" }),
         ("b", { name := "b", type := "uint32", optional := false, description := some "" })]
        [("b", Value.vInt 5)] =
      .ok [("b", Value.vInt 5)] ∧
    validate
        [("a", { name := "a", type := "string", optional := true, description := some "" }),
         ("b", { name := "b", type := "uint32", optional := false, description := some "" })]
        [] =
      .error (.missingMandatoryArgument "b") :=
  ⟨rfl, rfl, rfl, rfl⟩

theorem dget_reqParams_key (selfKey : Option String) (fmt : String)
    (p : List (String × String)) :
    dget (reqParams selfKey fmt p) "key" = keyHeld selfKey := by
  unfold reqParams keyHeld
  cases selfKey with
  | none => simp
  | some k => by_cases hk : k = "" <;> simp [hk]

theorem dget_reqParams_format (selfKey : Option String) (fmt : String)
    (p : List (String × String)) :
    dget (reqParams selfKey fmt p) "format" = some fmt := by
  unfold reqParams
  have h1 : dget (ddel (dset p "format" fmt) "key") "format" = some fmt := by
    rw [dget_ddel_ne _ _ _ (by decide)]
    exact dget_dset_self _ _ _
  cases selfKey with
  | none => exact h1
  | some k =>
    by_cases hk : k = ""
    · simpa [hk] using h1
    · simp only [hk, if_false]
      rw [dget_dset_ne _ _ _ _ (by decide)]
      exact h1

theorem dget_reqParams_other (selfKey : Option String) (fmt : String)
    (p : List (String × String)) (k : String)
    (hk1 : k ≠ "format") (hk2 : k ≠ "key") :
    dget (reqParams selfKey fmt p) k = dget p k := by
  unfold reqParams
  have h1 : dget (ddel (dset p "format" fmt) "key") k = dget p k := by
    rw [dget_ddel_ne _ _ _ hk2, dget_dset_ne _ _ _ _ hk1]
  cases selfKey with
  | none => exact h1
  | some key =>
    by_cases hke : key = ""
    · simpa [hke] using h1
    · simp only [hke, if_false]
      rw [dget_dset_ne _ _ _ _ hk2]
      exact h1

theorem request_ok_elim (selfKey : Option String)
    (selfFormat http_method iface meth : String) (version : Nat)
    (ps : List (String × String)) (format : Option String)
    (tc : TransportCall) (ps' : Option (List (String × String)))
    (hok : request selfKey selfFormat http_method iface meth version
        (some ps) format = (.ok tc, ps')) :
    tc.params = reqParams selfKey (format.getD selfFormat) ps ∧
    ps' = some (reqParams selfKey (format.getD selfFormat) ps) := by
  by_cases hfmt : format.getD selfFormat ∈ API_RESPONSE_FORMATS
  · simp [request, hfmt] at hok
    obtain ⟨h1, h2⟩ := hok
    constructor
    · rw [← h1]
    · rw [← h2]
  · simp [request, hfmt] at hok

/-- C5: whenever `request` reaches the transport (outcome `.ok`), the `key`
entry of the outgoing parameters is the client's own key — or absent when
the client holds none — regardless of the caller-supplied `key` value. -/
theorem C5_request_replaces_caller_key (selfKey : Option String)
    (selfFormat http_method iface meth : String) (version : Nat)
    (ps : List (String × String)) (v : String) (format : Option String)
    (tc : TransportCall) (ps' : Option (List (String × String)))
    (hkey : dget ps "key" = some v)
    (hok : request selfKey selfFormat http_method iface meth version
        (some ps) format = (.ok tc, ps')) :
    dget tc.params "key" = keyHeld selfKey := by
  obtain ⟨h1, _⟩ := request_ok_elim selfKey selfFormat http_method iface meth
    version ps format tc ps' hok
  rw [h1, dget_reqParams_key]

/-- C5 witness at a concrete call: the caller supplies `key=callerkey`, the
client holds `SECRET`, and the outgoing `key` entry is `SECRET`. -/
theorem C5_witness :
    dget (TransportCall.mk "GET" "https://api.steampowered.com/IFoo/GetBar/v2/"
      [("x", "1"), ("format", "json"), ("key", "SECRET")]).params "key" =
        keyHeld (some "SECRET") :=
  C5_request_replaces_caller_key (some "SECRET") "json" "GET" "IFoo" "GetBar" 2
    [("key", "callerkey"), ("x", "1")] "callerkey" none
    (TransportCall.mk "GET" "https://api.steampowered.com/IFoo/GetBar/v2/"
      [("x", "1"), ("format", "json"), ("key", "SECRET")])
    (some [("x", "1"), ("format", "json"), ("key", "SECRET")])
    rfl rfl

/-- C6: a decoder whose declared format tag is outside {json, vdf, xml}
makes `request` fail with the invalid-decoder error; no transport call is
made (the outcome carries none) and the caller's parameters are untouched. -/
theorem C6_invalid_decoder (selfKey : Option String)
    (selfFormat http_method iface meth : String) (version : Nat)
    (params : Option (List (String × String))) (fmt : String)
    (hbad : fmt ∉ API_RESPONSE_FORMATS) :
    request selfKey selfFormat http_method iface meth version params (some fmt) =
      (.error (.invalidDecoder fmt), params) := by
  simp [request, hbad]

/-- C6 witness: a decoder declaring format `"yaml"` is rejected. -/
theorem C6_witness :
    request (some "k") "json" "GET" "IFoo" "GetBar" 2
        (some [("x", "1")]) (some "yaml") =
      (.error (.invalidDecoder "yaml"), some [("x", "1")]) :=
  C6_invalid_decoder (some "k") "json" "GET" "IFoo" "GetBar" 2
    (some [("x", "1")]) "yaml" (by decide)

/-- C10: a call to `request` that returns, given a caller-supplied mapping,
leaves the caller's mapping equal to the mapping sent to the transport:
its `key` entry is the client's key (absent when the client holds none, the
caller's entry having been deleted), a `format` entry equal to the selected
decoder's format tag has been inserted, and every other entry is
unchanged. -/
theorem C10_request_mutates_caller_mapping (selfKey : Option String)
    (selfFormat http_method iface meth : String) (version : Nat)
    (ps : List (String × String)) (format : Option String)
    (tc : TransportCall) (ps' : Option (List (String × String)))
    (hok : request selfKey selfFormat http_method iface meth version
        (some ps) format = (.ok tc, ps')) :
    ps' = some tc.params ∧
    dget tc.params "format" = some (format.getD selfFormat) ∧
    dget tc.params "key" = keyHeld selfKey ∧
    ∀ k, k ≠ "format" → k ≠ "key" → dget tc.params k = dget ps k := by
  obtain ⟨h1, h2⟩ := request_ok_elim selfKey selfFormat http_method iface meth
    version ps format tc ps' hok
  refine ⟨by rw [h1, h2], ?_, ?_, ?_⟩
  · rw [h1, dget_reqParams_format]
  · rw [h1, dget_reqParams_key]
  · intro k hk1 hk2
    rw [h1, dget_reqParams_other _ _ _ _ hk1 hk2]

theorem foldl_miStep_fst (versions : List (String × Nat)) :
    ∀ (ms : List Method) (st : List (String × Method) × List (String × Nat)),
    (ms.foldl (miStep versions) st).1 = ms.foldl (miStepMethods versions) st.1 := by
  intro ms
  induction ms with
  | nil => intro st; rfl
  | cons m rest ih =>
    intro st
    rw [List.foldl_cons, List.foldl_cons]
    exact ih _

theorem buildMethodsDict_fst (versions : List (String × Nat)) (ms : List Method) :
    (buildMethodsDict versions ms).1 = ms.foldl (miStepMethods versions) [] :=
  foldl_miStep_fst versions ms ([], [])

theorem miStepMethods_keyInv (versions : List (String × Nat))
    (methods : List (String × Method)) (m : Method)
    (h : ∀ km ∈ methods, km.2.name = km.1) :
    ∀ km ∈ miStepMethods versions methods m, km.2.name = km.1 := by
  intro km hkm
  unfold miStepMethods at hkm
  cases hpin : dget versions m.name with
  | none =>
    simp only [hpin] at hkm
    cases hcur : dget methods m.name with
    | none =>
      simp only [hcur] at hkm
      rcases mem_dset _ _ _ _ hkm with he | he
      · rw [he]
      · exact h km he
    | some cur =>
      simp only [hcur] at hkm
      by_cases hv : m.version < cur.version
      · simp only [if_pos hv] at hkm
        rcases mem_dset _ _ _ _ hkm with he | he
        · rw [he]
          exact h (m.name, cur) (dget_mem _ _ _ hcur)
        · exact h km he
      · simp only [if_neg hv] at hkm
        rcases mem_dset _ _ _ _ hkm with he | he
        · rw [he]
        · exact h km he
  | some pinned =>
    simp only [hpin] at hkm
    by_cases hv : m.version = pinned
    · simp only [if_pos hv] at hkm
      rcases mem_dset _ _ _ _ hkm with he | he
      · rw [he]
      · exact h km he
    · simp only [if_neg hv] at hkm
      exact h km hkm

theorem miFoldMethods_keyInv (versions : List (String × Nat)) :
    ∀ (ms : List Method) (methods : List (String × Method)),
    (∀ km ∈ methods, km.2.name = km.1) →
    ∀ km ∈ ms.foldl (miStepMethods versions) methods, km.2.name = km.1 := by
  intro ms
  induction ms with
  | nil => intro methods h; exact h
  | cons m rest ih =>
    intro methods h
    rw [List.foldl_cons]
    exact ih _ (miStepMethods_keyInv _ _ _ h)

theorem miFoldMethods_pin_miss (versions : List (String × Nat)) (nm : String)
    (p : Nat) (hpin : dget versions nm = some p) :
    ∀ (ms : List Method), (∀ m ∈ ms, m.name = nm → m.version ≠ p) →
    ∀ methods, dget methods nm = none →
    dget (ms.foldl (miStepMethods versions) methods) nm = none := by
  intro ms
  induction ms with
  | nil => intro _ methods h; exact h
  | cons m rest ih =>
    intro hms methods h
    rw [List.foldl_cons]
    apply ih (fun m' hm' => hms m' (List.mem_cons_of_mem _ hm'))
    unfold miStepMethods
    by_cases hname : m.name = nm
    · have hvp : m.version ≠ p := hms m (List.mem_cons_self _ _) hname
      simp only [hname, hpin, if_neg hvp]
      exact h
    · cases hp2 : dget versions m.name with
      | none =>
        simp only [hp2]
        rw [dget_dset_ne _ _ _ _ (Ne.symm hname)]
        exact h
      | some q =>
        simp only [hp2]
        by_cases hv : m.version = q
        · rw [if_pos hv, dget_dset_ne _ _ _ _ (Ne.symm hname)]
          exact h
        · rw [if_neg hv]
          exact h

theorem methodParametersLoop_warns :
    ∀ (specs : List ParamSpec) (u : List (String × ParamSpec)) (w : List Warning)
      (ps : List (String × ParamSpec)) (ws : List Warning),
    methodParametersLoop specs u w = .ok (ps, ws) →
    ∀ x ∈ ws, x ∈ w ∨ ∃ t, x = Warning.unknownParamType t := by
  intro specs
  induction specs with
  | nil =>
    intro u w ps ws h x hx
    simp only [methodParametersLoop, Except.ok.injEq, Prod.mk.injEq] at h
    exact Or.inl (h.2 ▸ hx)
  | cons spec rest ih =>
    intro u w ps ws h x hx
    simp only [methodParametersLoop] at h
    by_cases h1 : spec.name = "key"
    · rw [if_pos h1] at h
      exact ih _ _ _ _ h x hx
    · rw [if_neg h1] at h
      cases h2 : ensure_identifier spec.name with
      | error e => simp only [h2] at h; cases h
      | ok name' =>
        simp only [h2] at h
        by_cases h3 : (dget u name').isSome
        · rw [if_pos h3] at h; cases h
        · rw [if_neg h3] at h
          by_cases h4 : PARAMETER_TYPES.contains spec.type
          · rw [if_pos h4] at h
            exact ih _ _ _ _ h x hx
          · rw [if_neg h4] at h
            rcases ih _ _ _ _ h x hx with hx' | hx'
            · rcases List.mem_append.mp hx' with hw | hw
              · exact Or.inl hw
              · simp only [List.mem_singleton] at hw
                exact Or.inr ⟨spec.type, hw⟩
            · exact Or.inr hx'

theorem make_method_warns (s : MethodSpecRaw) (mw : Method × List Warning)
    (h : make_method s = .ok mw) :
    ∀ x ∈ mw.2, ∃ t, x = Warning.unknownParamType t := by
  intro x hx
  unfold make_method at h
  cases h1 : ensure_identifier s.name with
  | error e => simp only [h1] at h; cases h
  | ok name' =>
    simp only [h1] at h
    cases h2 : methodParameters s.parameters with
    | error e => simp only [h2] at h; cases h
    | ok aw =>
      simp only [h2] at h
      obtain ⟨args, ws⟩ := aw
      simp only [Except.ok.injEq] at h
      rcases methodParametersLoop_warns s.parameters [] [] args ws h2 x
          (by rw [← h] at hx; exact hx) with hx' | hx'
      · cases hx'
      · exact hx'

theorem make_methods_warns :
    ∀ (specs : List MethodSpecRaw) (mws : List (Method × List Warning)),
    make_methods specs = .ok mws →
    ∀ x ∈ (mws.map Prod.snd).flatten, ∃ t, x = Warning.unknownParamType t := by
  intro specs
  induction specs with
  | nil =>
    intro mws h x hx
    simp only [make_methods, Except.ok.injEq] at h
    rw [← h] at hx
    cases hx
  | cons s rest ih =>
    intro mws h x hx
    simp only [make_methods] at h
    cases h1 : make_method s with
    | error e => simp only [h1] at h; cases h
    | ok mw =>
      simp only [h1] at h
      cases h2 : make_methods rest with
      | error e => simp only [h2] at h; cases h
      | ok rest' =>
        simp only [h2] at h
        simp only [Except.ok.injEq] at h
        rw [← h] at hx
        simp only [List.map_cons, List.flatten_cons, List.mem_append] at hx
        rcases hx with hx' | hx'
        · exact make_method_warns s mw h1 x hx'
        · exact ih rest' h2 x hx'

/-- C3: when a pin names a version never declared for the pinned (sanitized)
method name, interface synthesis still succeeds, binds no method of that
name, and emits no stale-version warning for that name — the drop is
silent. -/
theorem C3_pin_to_undeclared_version_silent (spec : InterfaceSpec)
    (versions : List (String × Nat)) (nm : String) (p : Nat)
    (mws : List (Method × List Warning))
    (hmk : make_methods spec.methods = .ok mws)
    (hpin : dget versions nm = some p)
    (hnodecl : ∀ m ∈ mws.map Prod.fst, m.name = nm → m.version ≠ p) :
    ∃ itf ws,
      make_interface spec versions = .ok (itf, ws) ∧
      dget itf.methods nm = none ∧
      ∀ i mn pv mv, Warning.staleVersion i mn pv mv ∈ ws → mn ≠ nm := by
  have hb : dget (buildMethodsDict versions (mws.map Prod.fst)).1 nm = none := by
    rw [buildMethodsDict_fst]
    exact miFoldMethods_pin_miss versions nm p hpin _ hnodecl [] rfl
  have hkeys : ∀ km ∈ (buildMethodsDict versions (mws.map Prod.fst)).1,
      km.2.name = km.1 := by
    rw [buildMethodsDict_fst]
    exact miFoldMethods_keyInv versions _ [] (by intro km hkm; cases hkm)
  refine ⟨{ name := nameAttr spec.name (buildMethodsDict versions (mws.map Prod.fst)).1,
            iter := dget (buildMethodsDict versions (mws.map Prod.fst)).1 "__iter__",
            methods := (buildMethodsDict versions (mws.map Prod.fst)).1 },
    (mws.map Prod.snd).flatten ++
      staleWarnings spec.name (buildMethodsDict versions (mws.map Prod.fst)).1
        (buildMethodsDict versions (mws.map Prod.fst)).2,
    ?_, hb, ?_⟩
  · unfold make_interface
    rw [hmk]
  · intro i mn pv mv hmem hctr
    rcases List.mem_append.mp hmem with hw | hw
    · obtain ⟨t, ht⟩ := make_methods_warns spec.methods mws hmk _ hw
      cases ht
    · unfold staleWarnings at hw
      rcases List.mem_filterMap.mp hw with ⟨km, hkm, hsome⟩
      by_cases hc : km.2.version <
          (dget (buildMethodsDict versions (mws.map Prod.fst)).2 km.2.name).getD 0
      · rw [if_pos hc] at hsome
        have hname : km.2.name = mn := by
          cases hsome
          rfl
        have hkmkey : km.2.name = km.1 := hkeys km hkm
        have : km.1 ≠ nm := (dget_eq_none_iff _ _).mp hb km hkm
        exact this (by rw [← hkmkey, hname, hctr])
      · rw [if_neg hc] at hsome
        cases hsome

/-- C3 witness: `IFoo` declares `bar` in versions 1 and 2; the pin names
version 3; synthesis succeeds, binds nothing under `bar`, and warns
nothing about `bar`. -/
theorem C3_witness :
    ∃ itf ws,
      make_interface ⟨"IFoo", [⟨"bar", 1, "GET", []⟩, ⟨"bar", 2, "POST", []⟩]⟩
          [("bar", 3)] = .ok (itf, ws) ∧
      dget itf.methods "bar" = none ∧
      ∀ i mn pv mv, Warning.staleVersion i mn pv mv ∈ ws → mn ≠ "bar" :=
  C3_pin_to_undeclared_version_silent
    ⟨"IFoo", [⟨"bar", 1, "GET", []⟩, ⟨"bar", 2, "POST", []⟩]⟩
    [("bar", 3)] "bar" 3
    [(⟨"bar", 1, "GET", []⟩, []), (⟨"bar", 2, "POST", []⟩, [])]
    rfl rfl
    (by
      intro m hm hname
      simp only [List.map_cons, List.map_nil, List.mem_cons, List.mem_singleton] at hm
      rcases hm with h | h | h
      · rw [h]; decide
      · rw [h]; decide
      · cases h)

theorem vsOf_nil (nm : String) : vsOf nm [] = [] := rfl

theorem vsOf_cons_pos (nm : String) (m : Method) (rest : List Method)
    (h : m.name = nm) : vsOf nm (m :: rest) = m.version :: vsOf nm rest := by
  simp [vsOf, List.filter_cons, h]

theorem vsOf_cons_neg (nm : String) (m : Method) (rest : List Method)
    (h : ¬m.name = nm) : vsOf nm (m :: rest) = vsOf nm rest := by
  simp [vsOf, List.filter_cons, h]

theorem runMax_nil (init : Option Nat) : runMax init [] = init := rfl

theorem runMax_cons (init : Option Nat) (v : Nat) (vs : List Nat) :
    runMax init (v :: vs) = runMax (some (max (init.getD 0) v)) vs := rfl

theorem runMax_eq_none :
    ∀ (vs : List Nat) (init : Option Nat), runMax init vs = none →
      init = none ∧ vs = [] := by
  intro vs
  induction vs with
  | nil => intro init h; exact ⟨h, rfl⟩
  | cons v vs ih =>
    intro init h
    rw [runMax_cons] at h
    obtain ⟨h1, _⟩ := ih _ h
    cases h1

theorem runMax_mem :
    ∀ (vs : List Nat) (init : Option Nat) (b : Nat), runMax init vs = some b →
      init = some b ∨ b ∈ vs := by
  intro vs
  induction vs with
  | nil => intro init b h; exact Or.inl h
  | cons v vs ih =>
    intro init b h
    rw [runMax_cons] at h
    rcases ih _ _ h with h' | h'
    · have hb : max (init.getD 0) v = b := by injection h'
      cases init with
      | none =>
        have hbv : b = v := by simpa using hb.symm
        exact Or.inr (hbv ▸ List.mem_cons_self _ _)
      | some x =>
        simp only [Option.getD_some] at hb
        rcases max_choice x v with hmx | hmx
        · rw [hmx] at hb
          exact Or.inl (by rw [hb])
        · rw [hmx] at hb
          exact Or.inr (by rw [← hb]; exact List.mem_cons_self _ _)
    · exact Or.inr (List.mem_cons_of_mem _ h')

theorem dget_miStepMethods_ne (versions : List (String × Nat))
    (methods : List (String × Method)) (m : Method) (nm : String)
    (h : ¬m.name = nm) :
    dget (miStepMethods versions methods m) nm = dget methods nm := by
  unfold miStepMethods
  cases hpin : dget versions m.name with
  | none =>
    simp only
    exact dget_dset_ne _ _ _ _ (Ne.symm h)
  | some pinned =>
    simp only
    by_cases hv : m.version = pinned
    · rw [if_pos hv]
      exact dget_dset_ne _ _ _ _ (Ne.symm h)
    · rw [if_neg hv]

/-- Characterization of the bound method version for a fixed name after the
whole method loop: with a pin it is the pinned version exactly when some
declared version matches it; without a pin it is the running maximum of the
declared versions. -/
theorem miFoldMethods_bound_char (versions : List (String × Nat)) (nm : String) :
    ∀ (ms : List Method) (methods : List (String × Method)),
    (dget (ms.foldl (miStepMethods versions) methods) nm).map Method.version =
      match dget versions nm with
      | some p =>
        if p ∈ vsOf nm ms then some p else (dget methods nm).map Method.version
      | none => runMax ((dget methods nm).map Method.version) (vsOf nm ms) := by
  intro ms
  induction ms with
  | nil =>
    intro methods
    cases h : dget versions nm <;> simp [vsOf_nil, runMax_nil, h]
  | cons m rest ih =>
    intro methods
    rw [List.foldl_cons]
    rw [ih (miStepMethods versions methods m)]
    by_cases hm : m.name = nm
    · rw [vsOf_cons_pos nm m rest hm]
      cases hpin : dget versions nm with
      | some p =>
        simp only
        have hstep : dget (miStepMethods versions methods m) nm =
            if m.version = p then some m else dget methods nm := by
          unfold miStepMethods
          rw [hm, hpin]
          simp only
          by_cases hv : m.version = p
          · rw [if_pos hv, if_pos hv, dget_dset_self]
          · rw [if_neg hv, if_neg hv]
        by_cases hv : m.version = p
        · rw [hstep, if_pos hv]
          have hmem : p ∈ m.version :: vsOf nm rest := by
            rw [hv]
            exact List.mem_cons_self _ _
          rw [if_pos hmem]
          by_cases hrest : p ∈ vsOf nm rest
          · rw [if_pos hrest]
          · rw [if_neg hrest]
            simp [Option.map_some, hv]
        · rw [hstep, if_neg hv]
          have hiff : (p ∈ m.version :: vsOf nm rest) ↔ p ∈ vsOf nm rest := by
            constructor
            · intro hmem
              rcases List.mem_cons.mp hmem with he | he
              · exact absurd he.symm hv
              · exact he
            · exact fun he => List.mem_cons_of_mem _ he
          by_cases hrest : p ∈ vsOf nm rest
          · rw [if_pos hrest, if_pos (hiff.mpr hrest)]
          · rw [if_neg hrest, if_neg (fun hc => hrest (hiff.mp hc))]
      | none =>
        simp only
        have hstep : dget (miStepMethods versions methods m) nm =
            some (match dget methods nm with
              | some current => if m.version < current.version then current else m
              | none => m) := by
          unfold miStepMethods
          rw [hm, hpin]
          simp only
          rw [dget_dset_self]
        rw [hstep, runMax_cons]
        have hver : (match dget methods nm with
              | some current => if m.version < current.version then current else m
              | none => m).version =
            max (((dget methods nm).map Method.version).getD 0) m.version := by
          cases hcur : dget methods nm with
          | none => simp
          | some cur =>
            simp only [Option.map_some', Option.getD_some]
            by_cases hv : m.version < cur.version
            · rw [if_pos hv]
              omega
            · rw [if_neg hv]
              omega
        rw [Option.map_some', hver]
    · rw [vsOf_cons_neg nm m rest hm, dget_miStepMethods_ne versions methods m nm hm]

theorem miStepMethods_keysNodup (versions : List (String × Nat))
    (methods : List (String × Method)) (m : Method)
    (h : (methods.map Prod.fst).Nodup) :
    ((miStepMethods versions methods m).map Prod.fst).Nodup := by
  unfold miStepMethods
  cases hpin : dget versions m.name with
  | none =>
    simp only
    exact dset_keys_nodup _ _ _ h
  | some pinned =>
    simp only
    by_cases hv : m.version = pinned
    · rw [if_pos hv]
      exact dset_keys_nodup _ _ _ h
    · rw [if_neg hv]
      exact h

theorem miFoldMethods_keysNodup (versions : List (String × Nat)) :
    ∀ (ms : List Method) (methods : List (String × Method)),
    (methods.map Prod.fst).Nodup →
    ((ms.foldl (miStepMethods versions) methods).map Prod.fst).Nodup := by
  intro ms
  induction ms with
  | nil => intro methods h; exact h
  | cons m rest ih =>
    intro methods h
    rw [List.foldl_cons]
    exact ih _ (miStepMethods_keysNodup _ _ _ h)

theorem make_interface_eq_ok (spec : InterfaceSpec) (versions : List (String × Nat))
    (mws : List (Method × List Warning))
    (h : make_methods spec.methods = .ok mws) :
    make_interface spec versions = .ok
      ({ name := nameAttr spec.name (buildMethodsDict versions (mws.map Prod.fst)).1,
         iter := dget (buildMethodsDict versions (mws.map Prod.fst)).1 "__iter__",
         methods := (buildMethodsDict versions (mws.map Prod.fst)).1 },
        (mws.map Prod.snd).flatten ++
          staleWarnings spec.name (buildMethodsDict versions (mws.map Prod.fst)).1
            (buildMethodsDict versions (mws.map Prod.fst)).2) := by
  unfold make_interface
  rw [h]

theorem make_interface_ok_inv (spec : InterfaceSpec) (versions : List (String × Nat))
    (itfw : Interface × List Warning)
    (h : make_interface spec versions = .ok itfw) :
    ∃ mws, make_methods spec.methods = .ok mws := by
  unfold make_interface at h
  cases h1 : make_methods spec.methods with
  | error e => simp only [h1] at h; cases h
  | ok mws => exact ⟨mws, rfl⟩

theorem make_interface_inv (spec : InterfaceSpec) (versions : List (String × Nat))
    (itf : Interface) (w : List Warning)
    (h : make_interface spec versions = .ok (itf, w)) :
    itf.name = nameAttr spec.name itf.methods ∧
    (∀ km ∈ itf.methods, km.2.name = km.1) ∧
    (itf.methods.map Prod.fst).Nodup := by
  obtain ⟨mws, hmws⟩ := make_interface_ok_inv spec versions (itf, w) h
  rw [make_interface_eq_ok spec versions mws hmws] at h
  have hitf : itf =
      { name := nameAttr spec.name (buildMethodsDict versions (mws.map Prod.fst)).1,
        iter := dget (buildMethodsDict versions (mws.map Prod.fst)).1 "__iter__",
        methods := (buildMethodsDict versions (mws.map Prod.fst)).1 } := by
    injection h with h'
    exact (congrArg Prod.fst h').symm
  rw [hitf]
  refine ⟨rfl, ?_, ?_⟩
  · rw [buildMethodsDict_fst]
    exact miFoldMethods_keyInv versions _ [] (by intro km hkm; cases hkm)
  · rw [buildMethodsDict_fst]
    exact miFoldMethods_keysNodup versions _ [] (by simp)

theorem findLast_name (iname : String) :
    ∀ (l : List InterfaceSpec) (ispec : InterfaceSpec),
    findLast iname l = some ispec → ispec.name = iname := by
  intro l
  induction l with
  | nil => intro ispec h; cases h
  | cons i rest ih =>
    intro ispec h
    simp only [findLast] at h
    cases hfl : findLast iname rest with
    | some r =>
      rw [hfl] at h
      injection h with h'
      exact h' ▸ ih r hfl
    | none =>
      rw [hfl] at h
      by_cases hn : i.name = iname
      · rw [if_pos hn] at h
        injection h with h'
        exact h' ▸ hn
      · rw [if_neg hn] at h
        cases h

theorem findLast_mem (iname : String) :
    ∀ (l : List InterfaceSpec) (ispec : InterfaceSpec),
    findLast iname l = some ispec → ispec ∈ l := by
  intro l
  induction l with
  | nil => intro ispec h; cases h
  | cons i rest ih =>
    intro ispec h
    simp only [findLast] at h
    cases hfl : findLast iname rest with
    | some r =>
      rw [hfl] at h
      injection h with h'
      exact h' ▸ List.mem_cons_of_mem _ (ih r hfl)
    | none =>
      rw [hfl] at h
      by_cases hn : i.name = iname
      · rw [if_pos hn] at h
        injection h with h'
        exact h' ▸ List.mem_cons_self _ _
      · rw [if_neg hn] at h
        cases h

theorem make_interfaces_loop_ok_methods (versions : List (NameAttr × List (String × Nat))) :
    ∀ (l : List InterfaceSpec) (st : List (String × Interface) × List Warning)
      (res : List (String × Interface) × List Warning),
    make_interfaces_loop versions l st = .ok res →
    ∀ ispec ∈ l, ∃ mws, make_methods ispec.methods = .ok mws := by
  intro l
  induction l with
  | nil => intro st res h ispec hmem; cases hmem
  | cons i rest ih =>
    intro st res h ispec hmem
    obtain ⟨cat0, ws0⟩ := st
    simp only [make_interfaces_loop] at h
    cases h1 : make_interface i ((dget versions (NameAttr.str i.name)).getD []) with
    | error e => simp only [h1] at h; cases h
    | ok itfw =>
      obtain ⟨itf0, w0⟩ := itfw
      simp only [h1] at h
      rcases List.mem_cons.mp hmem with he | he
      · exact he ▸ make_interface_ok_inv i _ (itf0, w0) h1
      · exact ih _ _ h ispec he

theorem make_interfaces_loop_ok_of_methods
    (versions : List (NameAttr × List (String × Nat))) :
    ∀ (l : List InterfaceSpec),
    (∀ ispec ∈ l, ∃ mws, make_methods ispec.methods = .ok mws) →
    ∀ st, ∃ res, make_interfaces_loop versions l st = .ok res := by
  intro l
  induction l with
  | nil => intro _ st; exact ⟨st, rfl⟩
  | cons i rest ih =>
    intro hall st
    obtain ⟨cat0, ws0⟩ := st
    obtain ⟨mws, hmws⟩ := hall i (List.mem_cons_self _ _)
    have hmi := make_interface_eq_ok i ((dget versions (NameAttr.str i.name)).getD []) mws hmws
    obtain ⟨res, hres⟩ := ih (fun ispec hmem => hall ispec (List.mem_cons_of_mem _ hmem))
      (dset cat0 i.name
        ⟨nameAttr i.name (buildMethodsDict ((dget versions (NameAttr.str i.name)).getD [])
            (mws.map Prod.fst)).1,
          dget (buildMethodsDict ((dget versions (NameAttr.str i.name)).getD [])
            (mws.map Prod.fst)).1 "__iter__",
          (buildMethodsDict ((dget versions (NameAttr.str i.name)).getD [])
            (mws.map Prod.fst)).1⟩,
        ws0 ++ ((mws.map Prod.snd).flatten ++
          staleWarnings i.name
            (buildMethodsDict ((dget versions (NameAttr.str i.name)).getD []) (mws.map Prod.fst)).1
            (buildMethodsDict ((dget versions (NameAttr.str i.name)).getD []) (mws.map Prod.fst)).2))
    refine ⟨res, ?_⟩
    simp only [make_interfaces_loop, hmi]
    exact hres

theorem make_interfaces_loop_dget (versions : List (NameAttr × List (String × Nat))) :
    ∀ (l : List InterfaceSpec) (cat0 : List (String × Interface)) (ws0 : List Warning)
      (cat : List (String × Interface)) (ws : List Warning),
    make_interfaces_loop versions l (cat0, ws0) = .ok (cat, ws) →
    ∀ iname,
      match findLast iname l with
      | none => dget cat iname = dget cat0 iname
      | some ispec => ∃ itf w,
          make_interface ispec ((dget versions (NameAttr.str ispec.name)).getD []) = .ok (itf, w) ∧
          dget cat iname = some itf := by
  intro l
  induction l with
  | nil =>
    intro cat0 ws0 cat ws h iname
    simp only [make_interfaces_loop, Except.ok.injEq, Prod.mk.injEq] at h
    simp only [findLast]
    rw [h.1]
  | cons i rest ih =>
    intro cat0 ws0 cat ws h iname
    simp only [make_interfaces_loop] at h
    cases h1 : make_interface i ((dget versions (NameAttr.str i.name)).getD []) with
    | error e => simp only [h1] at h; cases h
    | ok itfw =>
      obtain ⟨itf0, w0⟩ := itfw
      simp only [h1] at h
      have hrec := ih _ _ _ _ h iname
      simp only [findLast]
      cases hfl : findLast iname rest with
      | some r =>
        rw [hfl] at hrec
        exact hrec
      | none =>
        rw [hfl] at hrec
        by_cases hn : i.name = iname
        · rw [if_pos hn]
          refine ⟨itf0, w0, h1, ?_⟩
          rw [hrec, hn, dget_dset_self]
        · rw [if_neg hn]
          rw [hrec, dget_dset_ne _ _ _ _ (Ne.symm hn)]

theorem make_interfaces_loop_inv (versions : List (NameAttr × List (String × Nat))) :
    ∀ (l : List InterfaceSpec) (cat0 : List (String × Interface)) (ws0 : List Warning)
      (cat : List (String × Interface)) (ws : List Warning),
    make_interfaces_loop versions l (cat0, ws0) = .ok (cat, ws) →
    (∀ p ∈ cat0, p.2.name = nameAttr p.1 p.2.methods ∧
      (∀ km ∈ p.2.methods, km.2.name = km.1) ∧
      (p.2.methods.map Prod.fst).Nodup) →
    (cat0.map Prod.fst).Nodup →
    (∀ p ∈ cat, p.2.name = nameAttr p.1 p.2.methods ∧
      (∀ km ∈ p.2.methods, km.2.name = km.1) ∧
      (p.2.methods.map Prod.fst).Nodup) ∧
    (cat.map Prod.fst).Nodup := by
  intro l
  induction l with
  | nil =>
    intro cat0 ws0 cat ws h hinv hnd
    simp only [make_interfaces_loop, Except.ok.injEq, Prod.mk.injEq] at h
    exact h.1 ▸ ⟨hinv, hnd⟩
  | cons i rest ih =>
    intro cat0 ws0 cat ws h hinv hnd
    simp only [make_interfaces_loop] at h
    cases h1 : make_interface i ((dget versions (NameAttr.str i.name)).getD []) with
    | error e => simp only [h1] at h; cases h
    | ok itfw =>
      obtain ⟨itf0, w0⟩ := itfw
      simp only [h1] at h
      obtain ⟨hname0, hkm0, hnd0⟩ := make_interface_inv i _ itf0 w0 h1
      refine ih _ _ _ _ h ?_ (dset_keys_nodup _ _ _ hnd)
      intro p hp
      rcases mem_dset _ _ _ _ hp with he | he
      · rw [he]
        exact ⟨hname0, hkm0, hnd0⟩
      · exact hinv p he

theorem foldl_mv_fresh :
    ∀ (methods : List (String × Method)) (acc : List (String × Nat)),
    (∀ km ∈ methods, km.2.name = km.1) →
    ((methods.map Prod.fst).Nodup) →
    (∀ km ∈ methods, dget acc km.1 = none) →
    methods.foldl (fun mv km => dset mv km.2.name km.2.version) acc =
      acc ++ methods.map (fun km => (km.1, km.2.version)) := by
  intro methods
  induction methods with
  | nil => intro acc _ _ _; simp
  | cons km rest ih =>
    intro acc hkey hnd hfresh
    rw [List.map_cons, List.nodup_cons] at hnd
    rw [List.foldl_cons]
    have hk : km.2.name = km.1 := hkey km (List.mem_cons_self _ _)
    rw [hk, dset_fresh _ _ _ (hfresh km (List.mem_cons_self _ _))]
    rw [ih (acc ++ [(km.1, km.2.version)])
      (fun q hq => hkey q (List.mem_cons_of_mem _ hq))
      hnd.2
      (fun q hq => by
        rw [dget_append_right _ _ _ (hfresh q (List.mem_cons_of_mem _ hq))]
        have hne : q.1 ≠ km.1 := by
          intro he
          exact hnd.1 (he ▸ List.mem_map_of_mem Prod.fst hq)
        simp [dget, hne])]
    simp

theorem methodsVers_eq (itf : Interface)
    (hkey : ∀ km ∈ itf.methods, km.2.name = km.1)
    (hnd : (itf.methods.map Prod.fst).Nodup) :
    methodsVers itf = itf.methods.map (fun km => (km.1, km.2.version)) := by
  unfold methodsVers
  rw [foldl_mv_fresh itf.methods [] hkey hnd (fun _ _ => rfl)]
  simp

theorem dget_map_strKey (g : Interface → List (String × Nat))
    (l : List (String × Interface)) (k : String) :
    dget (l.map (fun p => (NameAttr.str p.1, g p.2))) (NameAttr.str k) =
      (dget l k).map g := by
  induction l with
  | nil => rfl
  | cons p rest ih =>
    obtain ⟨k0, v0⟩ := p
    by_cases h0 : k = k0
    · subst h0
      simp [dget]
    · simp [dget, h0, ih, NameAttr.str.injEq]

theorem pin_versions_loop_some_iter :
    ∀ (cat : List (String × Interface)) (acc P : List (NameAttr × List (String × Nat))),
    pin_versions_loop cat acc = some P → ∀ p ∈ cat, p.2.iter = none := by
  intro cat
  induction cat with
  | nil => intro acc P h p hp; cases hp
  | cons ki rest ih =>
    intro acc P h p hp
    simp only [pin_versions_loop] at h
    cases hi : ki.2.iter with
    | some m => simp only [hi] at h; cases h
    | none =>
      simp only [hi] at h
      rcases List.mem_cons.mp hp with he | he
      · rw [he]
        exact hi
      · exact ih _ _ h p he

theorem pin_versions_loop_eq :
    ∀ (cat : List (String × Interface)) (acc : List (NameAttr × List (String × Nat))),
    (∀ p ∈ cat, p.2.iter = none) →
    (∀ p ∈ cat, p.2.name = NameAttr.str p.1) →
    ((cat.map Prod.fst).Nodup) →
    (∀ p ∈ cat, dget acc (NameAttr.str p.1) = none) →
    pin_versions_loop cat acc =
      some (acc ++ cat.map (fun p => (NameAttr.str p.1, methodsVers p.2))) := by
  intro cat
  induction cat with
  | nil => intro acc _ _ _ _; simp [pin_versions_loop]
  | cons ki rest ih =>
    intro acc hiter hkey hnd hfresh
    rw [List.map_cons, List.nodup_cons] at hnd
    have hi : ki.2.iter = none := hiter ki (List.mem_cons_self _ _)
    simp only [pin_versions_loop, hi]
    have hk : ki.2.name = NameAttr.str ki.1 := hkey ki (List.mem_cons_self _ _)
    rw [hk, dset_fresh _ _ _ (hfresh ki (List.mem_cons_self _ _))]
    rw [ih (acc ++ [(NameAttr.str ki.1, methodsVers ki.2)])
      (fun q hq => hiter q (List.mem_cons_of_mem _ hq))
      (fun q hq => hkey q (List.mem_cons_of_mem _ hq))
      hnd.2
      (fun q hq => by
        rw [dget_append_right _ _ _ (hfresh q (List.mem_cons_of_mem _ hq))]
        have hne : q.1 ≠ ki.1 := by
          intro he
          exact hnd.1 (he ▸ List.mem_map_of_mem Prod.fst hq)
        simp [dget, NameAttr.str.injEq, hne])]
    simp

theorem dget_pin_versions (cat : List (String × Interface))
    (P : List (NameAttr × List (String × Nat)))
    (hP : pin_versions cat = some P)
    (hkey : ∀ p ∈ cat, p.2.name = NameAttr.str p.1)
    (hnd : (cat.map Prod.fst).Nodup) (iname : String) :
    dget P (NameAttr.str iname) = (dget cat iname).map methodsVers := by
  have hiter : ∀ p ∈ cat, p.2.iter = none :=
    pin_versions_loop_some_iter cat [] P hP
  have heq : pin_versions cat =
      some ([] ++ cat.map (fun p => (NameAttr.str p.1, methodsVers p.2))) :=
    pin_versions_loop_eq cat [] hiter hkey hnd (fun _ _ => rfl)
  rw [hP] at heq
  injection heq with hPe
  rw [hPe, List.nil_append]
  exact dget_map_strKey methodsVers cat iname

/-- C4 (amended): for a catalog whose build succeeded, on which
`pin_versions()` completes normally (no interface binds a method named
`__iter__`, which would replace the iteration protocol with a synthesized
method), in which no interface binds a method literally named `name` (which
would overwrite the class's `name` attribute, so `pin_versions()` would key
that interface's pins by a bound-method object the rebuild never consults),
and in which every consulted version pin names a declared version of its
method — in particular any catalog built with no pins and free of such
method names — rebuilding from the same listing with the `pin_versions()`
output as the versions input succeeds and binds exactly the same version
for every interface method. -/
theorem C4_pin_versions_roundtrip (api_list : List InterfaceSpec)
    (V : List (NameAttr × List (String × Nat)))
    (cat : List (String × Interface)) (w : List Warning)
    (P : List (NameAttr × List (String × Nat)))
    (h1 : make_interfaces api_list V = .ok (cat, w))
    (hP : pin_versions cat = some P)
    (hnoclobber : ∀ p ∈ cat, dget p.2.methods "name" = none)
    (h2 : ∀ ispec ∈ api_list, ∀ mws, make_methods ispec.methods = .ok mws →
      ∀ mname p, dget ((dget V (NameAttr.str ispec.name)).getD []) mname = some p →
        vsOf mname (mws.map Prod.fst) ≠ [] →
        p ∈ vsOf mname (mws.map Prod.fst)) :
    ∃ cat2 w2,
      make_interfaces api_list P = .ok (cat2, w2) ∧
      ∀ iname mname, boundVer cat2 iname mname = boundVer cat iname mname := by
  have hms : ∀ ispec ∈ api_list, ∃ mws, make_methods ispec.methods = .ok mws :=
    make_interfaces_loop_ok_methods V api_list ([], []) (cat, w) h1
  obtain ⟨res2, hres2⟩ :=
    make_interfaces_loop_ok_of_methods P api_list hms ([], [])
  obtain ⟨cat2, w2⟩ := res2
  obtain ⟨hcatinv, hcatnd⟩ := make_interfaces_loop_inv V api_list [] [] cat w h1
    (by intro p hp; cases hp) (by simp)
  have hkeyS : ∀ p ∈ cat, p.2.name = NameAttr.str p.1 := by
    intro p hp
    have h := (hcatinv p hp).1
    rw [h]
    unfold nameAttr
    rw [hnoclobber p hp]
  refine ⟨cat2, w2, hres2, ?_⟩
  intro iname mname
  have hchar1 := make_interfaces_loop_dget V api_list [] [] cat w h1 iname
  have hchar2 := make_interfaces_loop_dget P api_list [] [] cat2 w2
    hres2 iname
  have hpv : dget P (NameAttr.str iname) = (dget cat iname).map methodsVers :=
    dget_pin_versions cat P hP hkeyS hcatnd iname
  cases hfl : findLast iname api_list with
  | none =>
    rw [hfl] at hchar1 hchar2
    unfold boundVer
    rw [hchar1, hchar2]
  | some ispec =>
    rw [hfl] at hchar1 hchar2
    obtain ⟨itf1, w1, hmk1, hdget1⟩ := hchar1
    obtain ⟨itf2, w2', hmk2, hdget2⟩ := hchar2
    have hiname : ispec.name = iname := findLast_name iname api_list ispec hfl
    have hispecmem : ispec ∈ api_list := findLast_mem iname api_list ispec hfl
    obtain ⟨mws, hmws⟩ := hms ispec hispecmem
    have hpair1 : itf1 =
        ⟨nameAttr ispec.name
            (buildMethodsDict ((dget V (NameAttr.str ispec.name)).getD [])
              (mws.map Prod.fst)).1,
          dget (buildMethodsDict ((dget V (NameAttr.str ispec.name)).getD [])
              (mws.map Prod.fst)).1 "__iter__",
          (buildMethodsDict ((dget V (NameAttr.str ispec.name)).getD [])
            (mws.map Prod.fst)).1⟩ := by
      have he1 := make_interface_eq_ok ispec
        ((dget V (NameAttr.str ispec.name)).getD []) mws hmws
      rw [hmk1] at he1
      injection he1 with he1'
      exact congrArg Prod.fst he1'
    have hpair2 : itf2 =
        ⟨nameAttr ispec.name
            (buildMethodsDict ((dget P (NameAttr.str ispec.name)).getD [])
              (mws.map Prod.fst)).1,
          dget (buildMethodsDict ((dget P (NameAttr.str ispec.name)).getD [])
              (mws.map Prod.fst)).1 "__iter__",
          (buildMethodsDict ((dget P (NameAttr.str ispec.name)).getD [])
            (mws.map Prod.fst)).1⟩ := by
      have he2 := make_interface_eq_ok ispec
        ((dget P (NameAttr.str ispec.name)).getD []) mws hmws
      rw [hmk2] at he2
      injection he2 with he2'
      exact congrArg Prod.fst he2'
    have hmeth1 : itf1.methods = (mws.map Prod.fst).foldl
        (miStepMethods ((dget V (NameAttr.str ispec.name)).getD [])) [] := by
      rw [hpair1]
      exact buildMethodsDict_fst _ _
    have hmeth2 : itf2.methods = (mws.map Prod.fst).foldl
        (miStepMethods ((dget P (NameAttr.str ispec.name)).getD [])) [] := by
      rw [hpair2]
      exact buildMethodsDict_fst _ _
    have char1 : (dget itf1.methods mname).map Method.version =
        (match dget ((dget V (NameAttr.str ispec.name)).getD []) mname with
         | some p => if p ∈ vsOf mname (mws.map Prod.fst) then some p else none
         | none => runMax none (vsOf mname (mws.map Prod.fst))) := by
      rw [hmeth1]
      exact miFoldMethods_bound_char ((dget V (NameAttr.str ispec.name)).getD [])
        mname (mws.map Prod.fst) []
    have hPi : (dget P (NameAttr.str ispec.name)).getD [] =
        itf1.methods.map (fun km => (km.1, km.2.version)) := by
      rw [hiname, hpv, hdget1]
      simp only [Option.map_some', Option.getD_some]
      have hpm := hcatinv (iname, itf1) (dget_mem _ _ _ hdget1)
      exact methodsVers_eq itf1 hpm.2.1 hpm.2.2
    have hdgetPi : dget ((dget P (NameAttr.str ispec.name)).getD []) mname =
        (dget itf1.methods mname).map Method.version := by
      rw [hPi]
      exact dget_map Method.version itf1.methods mname
    have char2 : (dget itf2.methods mname).map Method.version =
        (match (dget itf1.methods mname).map Method.version with
         | some p => if p ∈ vsOf mname (mws.map Prod.fst) then some p else none
         | none => runMax none (vsOf mname (mws.map Prod.fst))) := by
      rw [hmeth2]
      rw [miFoldMethods_bound_char ((dget P (NameAttr.str ispec.name)).getD [])
        mname (mws.map Prod.fst) []]
      rw [hdgetPi]
      rfl
    unfold boundVer
    rw [hdget1, hdget2]
    show (dget itf2.methods mname).map Method.version =
      (dget itf1.methods mname).map Method.version
    cases hb : (dget itf1.methods mname).map Method.version with
    | some b =>
      have hbmem : b ∈ vsOf mname (mws.map Prod.fst) := by
        rw [hb] at char1
        cases hvi : dget ((dget V (NameAttr.str ispec.name)).getD []) mname with
        | some p =>
          simp only [hvi] at char1
          by_cases hmem : p ∈ vsOf mname (mws.map Prod.fst)
          · rw [if_pos hmem] at char1
            injection char1 with hbp
            exact hbp ▸ hmem
          · rw [if_neg hmem] at char1
            cases char1
        | none =>
          simp only [hvi] at char1
          rcases runMax_mem _ _ _ char1.symm with h' | h'
          · cases h'
          · exact h'
      rw [char2, hb]
      show (if b ∈ vsOf mname (mws.map Prod.fst) then some b else none) = some b
      rw [if_pos hbmem]
    | none =>
      have hvs : vsOf mname (mws.map Prod.fst) = [] := by
        rw [hb] at char1
        cases hvi : dget ((dget V (NameAttr.str ispec.name)).getD []) mname with
        | some p =>
          simp only [hvi] at char1
          by_cases hmem : p ∈ vsOf mname (mws.map Prod.fst)
          · rw [if_pos hmem] at char1
            cases char1
          · by_cases hnil : vsOf mname (mws.map Prod.fst) = []
            · exact hnil
            · exact absurd (h2 ispec hispecmem mws hmws mname p hvi hnil) hmem
        | none =>
          simp only [hvi] at char1
          exact (runMax_eq_none _ _ char1.symm).2
      rw [char2, hb, hvs]
      rfl

/-- C4 witness: a one-interface listing with no method named `name` or
`__iter__` built with no pins at all; the rebuild with `pin_versions()`
succeeds and binds the same versions. -/
theorem C4_witness :
    ∃ cat2 w2,
      make_interfaces [⟨"IFoo", [⟨"bar", 1, "GET", []⟩, ⟨"bar", 2, "POST", []⟩]⟩]
          [(NameAttr.str "IFoo", [("bar", 2)])] =
        .ok (cat2, w2) ∧
      ∀ iname mname,
        boundVer cat2 iname mname =
          boundVer
            [("IFoo", ⟨NameAttr.str "IFoo", none,
              [("bar", ⟨"bar", 2, "POST", []⟩)]⟩)]
            iname mname :=
  C4_pin_versions_roundtrip
    [⟨"IFoo", [⟨"bar", 1, "GET", []⟩, ⟨"bar", 2, "POST", []⟩]⟩] []
    [("IFoo", ⟨NameAttr.str "IFoo", none, [("bar", ⟨"bar", 2, "POST", []⟩)]⟩)] []
    [(NameAttr.str "IFoo", [("bar", 2)])]
    rfl
    rfl
    (by
      intro p hp
      simp only [List.mem_singleton] at hp
      rw [hp]
      rfl)
    (fun ispec _ mws _ mname p hp _ => by simp [dget] at hp)

/-- C4 counterexample to the round-trip claim, in two parts.  First, a
catalog built with the pin `bar -> 3`, a version never declared, binds no
method under `bar`; rebuilding the same listing with that catalog's
`pin_versions()` output re-binds `bar` at version 2.  Second, a catalog
whose interface declares a method literally named `name` under versions 1
and 2 with the pin `name -> 1` (a declared version) binds version 1, but
`attrs.update(methods)` has overwritten the class's `name` attribute with
the bound method, so `pin_versions()` keys that interface's pins by the
method object; the rebuild looks pins up under the interface name string,
finds none, and re-binds version 2. -/
theorem C4_counterexample :
    make_interfaces [⟨"IFoo", [⟨"bar", 1, "GET", []⟩, ⟨"bar", 2, "GET", []⟩]⟩]
        [(NameAttr.str "IFoo", [("bar", 3)])] =
      .ok ([("IFoo", ⟨NameAttr.str "IFoo", none, []⟩)], []) ∧
    pin_versions [("IFoo", ⟨NameAttr.str "IFoo", none, []⟩)] =
      some [(NameAttr.str "IFoo", [])] ∧
    make_interfaces [⟨"IFoo", [⟨"bar", 1, "GET", []⟩, ⟨"bar", 2, "GET", []⟩]⟩]
        [(NameAttr.str "IFoo", [])] =
      .ok ([("IFoo", ⟨NameAttr.str "IFoo", none,
        [("bar", ⟨"bar", 2, "GET", []⟩)]⟩)], []) ∧
    boundVer [("IFoo", ⟨NameAttr.str "IFoo", none, []⟩)] "IFoo" "bar" = none ∧
    boundVer [("IFoo", ⟨NameAttr.str "IFoo", none,
      [("bar", ⟨"bar", 2, "GET", []⟩)]⟩)] "IFoo" "bar" = some 2 ∧
    make_interfaces [⟨"IFoo", [⟨"name", 1, "GET", []⟩, ⟨"name", 2, "GET", []⟩]⟩]
        [(NameAttr.str "IFoo", [("name", 1)])] =
      .ok ([("IFoo", ⟨NameAttr.meth ⟨"name", 1, "GET", []⟩, none,
        [("name", ⟨"name", 1, "GET", []⟩)]⟩)],
        [.staleVersion "IFoo" "name" 1 2]) ∧
    pin_versions [("IFoo", ⟨NameAttr.meth ⟨"name", 1, "GET", []⟩, none,
      [("name", ⟨"name", 1, "GET", []⟩)]⟩)] =
      some [(NameAttr.meth ⟨"name", 1, "GET", []⟩, [("name", 1)])] ∧
    make_interfaces [⟨"IFoo", [⟨"name", 1, "GET", []⟩, ⟨"name", 2, "GET", []⟩]⟩]
        [(NameAttr.meth ⟨"name", 1, "GET", []⟩, [("name", 1)])] =
      .ok ([("IFoo", ⟨NameAttr.meth ⟨"name", 2, "GET", []⟩, none,
        [("name", ⟨"name", 2, "GET", []⟩)]⟩)], []) ∧
    boundVer [("IFoo", ⟨NameAttr.meth ⟨"name", 1, "GET", []⟩, none,
      [("name", ⟨"name", 1, "GET", []⟩)]⟩)] "IFoo" "name" = some 1 ∧
    boundVer [("IFoo", ⟨NameAttr.meth ⟨"name", 2, "GET", []⟩, none,
      [("name", ⟨"name", 2, "GET", []⟩)]⟩)] "IFoo" "name" = some 2 ∧
    (some 1 : Option Nat) ≠ some 2 :=
  ⟨rfl, rfl, rfl, rfl, rfl, rfl, rfl, rfl, rfl, rfl,
    fun h => by cases h⟩

/-- C1: an interface declaring one method under versions 1 and 2 (in
either order), with no pin for that method name, binds the version-2
method, and no warning at all is emitted. -/
theorem C1_no_pin_binds_highest (iname nm nm' hm1 hm2 : String)
    (versions : List (String × Nat))
    (henc : ensure_identifier nm = .ok nm')
    (hpin : dget versions nm' = none) :
    make_interface ⟨iname, [⟨nm, 1, hm1, []⟩, ⟨nm, 2, hm2, []⟩]⟩ versions =
      .ok (⟨nameAttr iname [(nm', ⟨nm', 2, hm2, []⟩)],
        dget [(nm', (⟨nm', 2, hm2, []⟩ : Method))] "__iter__",
        [(nm', ⟨nm', 2, hm2, []⟩)]⟩, []) ∧
    make_interface ⟨iname, [⟨nm, 2, hm2, []⟩, ⟨nm, 1, hm1, []⟩]⟩ versions =
      .ok (⟨nameAttr iname [(nm', ⟨nm', 2, hm2, []⟩)],
        dget [(nm', (⟨nm', 2, hm2, []⟩ : Method))] "__iter__",
        [(nm', ⟨nm', 2, hm2, []⟩)]⟩, []) := by
  constructor <;>
  · simp [make_interface, make_methods, make_method, methodParameters,
      methodParametersLoop, sortByKey, buildMethodsDict, miStep, miStepMethods,
      miStepMax, staleWarnings, henc, hpin, dget, dset, List.filterMap]

/-- C1 witness: interface `IFoo`, method `bar` in versions 1 and 2, no
pins at all. -/
theorem C1_witness :
    make_interface ⟨"IFoo", [⟨"bar", 1, "GET", []⟩, ⟨"bar", 2, "POST", []⟩]⟩ [] =
      .ok (⟨nameAttr "IFoo" [("bar", ⟨"bar", 2, "POST", []⟩)],
        dget [("bar", (⟨"bar", 2, "POST", []⟩ : Method))] "__iter__",
        [("bar", ⟨"bar", 2, "POST", []⟩)]⟩, []) ∧
    make_interface ⟨"IFoo", [⟨"bar", 2, "POST", []⟩, ⟨"bar", 1, "GET", []⟩]⟩ [] =
      .ok (⟨nameAttr "IFoo" [("bar", ⟨"bar", 2, "POST", []⟩)],
        dget [("bar", (⟨"bar", 2, "POST", []⟩ : Method))] "__iter__",
        [("bar", ⟨"bar", 2, "POST", []⟩)]⟩, []) :=
  C1_no_pin_binds_highest "IFoo" "bar" "bar" "GET" "POST" [] rfl rfl

/-- C2: an interface declaring one method under versions 1 and 2 (in
either order), with a pin fixing that method to version 1, binds the
version-1 method and emits exactly one stale-version warning carrying the
interface name, the method name, the pinned version 1 and the maximum
version 2. -/
theorem C2_stale_pin_warns (iname nm nm' hm1 hm2 : String)
    (versions : List (String × Nat))
    (henc : ensure_identifier nm = .ok nm')
    (hpin : dget versions nm' = some 1) :
    make_interface ⟨iname, [⟨nm, 1, hm1, []⟩, ⟨nm, 2, hm2, []⟩]⟩ versions =
      .ok (⟨nameAttr iname [(nm', ⟨nm', 1, hm1, []⟩)],
        dget [(nm', (⟨nm', 1, hm1, []⟩ : Method))] "__iter__",
        [(nm', ⟨nm', 1, hm1, []⟩)]⟩,
        [.staleVersion iname nm' 1 2]) ∧
    make_interface ⟨iname, [⟨nm, 2, hm2, []⟩, ⟨nm, 1, hm1, []⟩]⟩ versions =
      .ok (⟨nameAttr iname [(nm', ⟨nm', 1, hm1, []⟩)],
        dget [(nm', (⟨nm', 1, hm1, []⟩ : Method))] "__iter__",
        [(nm', ⟨nm', 1, hm1, []⟩)]⟩,
        [.staleVersion iname nm' 1 2]) := by
  constructor <;>
  · simp [make_interface, make_methods, make_method, methodParameters,
      methodParametersLoop, sortByKey, buildMethodsDict, miStep, miStepMethods,
      miStepMax, staleWarnings, henc, hpin, dget, dset, List.filterMap]

/-- C2 witness: interface `IFoo`, method `bar` in versions 1 and 2, pinned
to version 1. -/
theorem C2_witness :
    make_interface ⟨"IFoo", [⟨"bar", 1, "GET", []⟩, ⟨"bar", 2, "POST", []⟩]⟩
        [("bar", 1)] =
      .ok (⟨nameAttr "IFoo" [("bar", ⟨"bar", 1, "GET", []⟩)],
        dget [("bar", (⟨"bar", 1, "GET", []⟩ : Method))] "__iter__",
        [("bar", ⟨"bar", 1, "GET", []⟩)]⟩,
        [.staleVersion "IFoo" "bar" 1 2]) ∧
    make_interface ⟨"IFoo", [⟨"bar", 2, "POST", []⟩, ⟨"bar", 1, "GET", []⟩]⟩
        [("bar", 1)] =
      .ok (⟨nameAttr "IFoo" [("bar", ⟨"bar", 1, "GET", []⟩)],
        dget [("bar", (⟨"bar", 1, "GET", []⟩ : Method))] "__iter__",
        [("bar", ⟨"bar", 1, "GET", []⟩)]⟩,
        [.staleVersion "IFoo" "bar" 1 2]) :=
  C2_stale_pin_warns "IFoo" "bar" "bar" "GET" "POST" [("bar", 1)] rfl rfl

/-- C10 witness at a concrete call: caller passes `key` and `x`; afterwards
the mapping holds `x`, `format=json` and the client's key. -/
theorem C10_witness :
    (some [("x", "1"), ("format", "json"), ("key", "SECRET")] :
        Option (List (String × String))) =
      some (TransportCall.mk "GET" "https://api.steampowered.com/IFoo/GetBar/v2/"
        [("x", "1"), ("format", "json"), ("key", "SECRET")]).params ∧
    dget (TransportCall.mk "GET" "https://api.steampowered.com/IFoo/GetBar/v2/"
      [("x", "1"), ("format", "json"), ("key", "SECRET")]).params "format" =
        some ((none : Option String).getD "json") ∧
    dget (TransportCall.mk "GET" "https://api.steampowered.com/IFoo/GetBar/v2/"
      [("x", "1"), ("format", "json"), ("key", "SECRET")]).params "key" =
        keyHeld (some "SECRET") ∧
    ∀ k, k ≠ "format" → k ≠ "key" →
      dget (TransportCall.mk "GET" "https://api.steampowered.com/IFoo/GetBar/v2/"
        [("x", "1"), ("format", "json"), ("key", "SECRET")]).params k =
      dget [("key", "callerkey"), ("x", "1")] k :=
  C10_request_mutates_caller_mapping (some "SECRET") "json" "GET" "IFoo" "GetBar" 2
    [("key", "callerkey"), ("x", "1")] none
    (TransportCall.mk "GET" "https://api.steampowered.com/IFoo/GetBar/v2/"
      [("x", "1"), ("format", "json"), ("key", "SECRET")])
    (some [("x", "1"), ("format", "json"), ("key", "SECRET")])
    rfl

end Valve
